import Mathlib

/-!
Verification of the policy-pilot repository (a RAG-based document
question-answering assistant) against its natural-language specification.

The development shallowly embeds the Python sources:
  * `src/rag_engine.py`   — `RAGEngine._get_mmr_search_params`, `process_query`,
    `get_chat_history`, and the `ConversationBufferWindowMemory(k=5)` config;
  * `src/document_processor.py` — `DocumentProcessor.process_file`,
    `update_vector_store`, `get_document_stats`, and the
    `RecursiveCharacterTextSplitter(chunk_size=1000, chunk_overlap=200)` config;
  * `src/app.py`          — the upload loop that skips already-seen filenames.

External library components (the langchain text splitter and window memory,
the Chroma vector collection, the embedding/generation services) are not part
of the repository source; where their behaviour decides a property they are
modelled from the specification, and each such definition is marked
`Modelled from the spec:` in its doc comment.
-/

/-! ## Query word splitting and substring search (Python `str.split`, `in`) -/

/-- Accumulating scanner behind `pySplitWhitespace`: `acc` holds the reversed
current word. -/
def splitWSAux : List Char → List Char → List (List Char)
  | [], acc => if acc = [] then [] else [acc.reverse]
  | c :: cs, acc =>
      if c.isWhitespace then
        (if acc = [] then [] else [acc.reverse]) ++ splitWSAux cs []
      else
        splitWSAux cs (c :: acc)

/-- Python `query.split()` with no argument: split on whitespace runs,
discarding empty fragments. -/
def pySplitWhitespace (s : String) : List (List Char) :=
  splitWSAux s.toList []

/-- Python `pat in s`: case-sensitive substring containment test,
over character lists. -/
def pyContains (s pat : List Char) : Bool :=
  (List.range (s.length + 1)).any (fun i => List.isPrefixOf pat (s.drop i))

/-- Python `s.lower()`, character by character. -/
def pyLower (s : String) : List Char :=
  s.toList.map Char.toLower

/-! ## `RAGEngine._get_mmr_search_params` (src/rag_engine.py lines 103-129) -/

/-- Exact embedding of the Python float literal 0.5 (in lowest terms, so that
equality of parameter records is kernel-decidable). -/
def q05 : ℚ := ⟨1, 2, by decide, by decide⟩

/-- Exact embedding of the Python float literal 0.6. -/
def q06 : ℚ := ⟨3, 5, by decide, by decide⟩

/-- Exact embedding of the Python float literal 0.7. -/
def q07 : ℚ := ⟨7, 10, by decide, by decide⟩

/-- Exact embedding of the Python float literal 0.85. -/
def q085 : ℚ := ⟨17, 20, by decide, by decide⟩

/-- The embedded float constants denote the spec's decimal values. -/
theorem q_constant_values :
    q05 = 5/10 ∧ q06 = 6/10 ∧ q07 = 7/10 ∧ q085 = 85/100 := by
  refine ⟨?_, ?_, ?_, ?_⟩ <;>
    · first
      | (rw [q05, Rat.mk'_eq_divInt]; norm_num [Rat.divInt_eq_div])
      | (rw [q06, Rat.mk'_eq_divInt]; norm_num [Rat.divInt_eq_div])
      | (rw [q07, Rat.mk'_eq_divInt]; norm_num [Rat.divInt_eq_div])
      | (rw [q085, Rat.mk'_eq_divInt]; norm_num [Rat.divInt_eq_div])


/-- The retrieval-parameter record built by `_get_mmr_search_params`.
Python float literals are embedded as exact rationals (the code only ever
assigns the constants 0.5, 0.6, 0.7, 0.85 and never computes with them). -/
structure MMRParams where
  k : Nat
  fetch_k : Nat
  lambda_mult : ℚ
  filter_similarity : ℚ
deriving DecidableEq

/-- `RAGEngine._get_mmr_search_params`: default `{k:=3, fetch_k:=5,
lambda_mult:=0.7, filter_similarity:=0.85}`; if the query has more than 15
whitespace-separated words, update to `{k:=4, fetch_k:=8, lambda_mult:=0.6}`;
otherwise if the lower-cased query contains `"compare"` or `"difference"`,
update to `{k:=4, fetch_k:=6, lambda_mult:=0.5}`. -/
def getMMRSearchParams (query : String) : MMRParams :=
  let params : MMRParams :=
    { k := 3, fetch_k := 5, lambda_mult := q07, filter_similarity := q085 }
  if (pySplitWhitespace query).length > 15 then
    { params with k := 4, fetch_k := 8, lambda_mult := q06 }
  else if pyContains (pyLower query) ("compare".toList) || pyContains (pyLower query) ("difference".toList) then
    { params with k := 4, fetch_k := 6, lambda_mult := q05 }
  else
    params

/-- C1, part of the claim theorem: the three parameter records named by the
spec, written out in full. -/
def complexParams : MMRParams :=
  { k := 4, fetch_k := 8, lambda_mult := q06, filter_similarity := q085 }

def compareParams : MMRParams :=
  { k := 4, fetch_k := 6, lambda_mult := q05, filter_similarity := q085 }

def defaultParams : MMRParams :=
  { k := 3, fetch_k := 5, lambda_mult := q07, filter_similarity := q085 }

/-- C1: the derivation returns exactly the spec's values, branch by branch,
with the word-count branch taking precedence over the keyword branch. -/
theorem mmr_param_derivation (query : String) :
    ((pySplitWhitespace query).length > 15 →
      getMMRSearchParams query = complexParams)
    ∧ ((pySplitWhitespace query).length ≤ 15 →
        (pyContains (pyLower query) ("compare".toList) = true
          ∨ pyContains (pyLower query) ("difference".toList) = true) →
        getMMRSearchParams query = compareParams)
    ∧ ((pySplitWhitespace query).length ≤ 15 →
        pyContains (pyLower query) ("compare".toList) = false →
        pyContains (pyLower query) ("difference".toList) = false →
        getMMRSearchParams query = defaultParams) := by
  refine ⟨?_, ?_, ?_⟩
  · intro h
    unfold getMMRSearchParams
    rw [if_pos h]
    rfl
  · intro h hkw
    have hn : ¬ (pySplitWhitespace query).length > 15 := by omega
    have hor : (pyContains (pyLower query) ("compare".toList)
        || pyContains (pyLower query) ("difference".toList)) = true := by
      rcases hkw with hkw | hkw <;> rw [hkw] <;> simp
    unfold getMMRSearchParams
    rw [if_neg hn, if_pos hor]
    rfl
  · intro h hc hd
    have hn : ¬ (pySplitWhitespace query).length > 15 := by omega
    have hor : ¬ ((pyContains (pyLower query) ("compare".toList)
        || pyContains (pyLower query) ("difference".toList)) = true) := by
      rw [hc, hd]; simp
    unfold getMMRSearchParams
    rw [if_neg hn, if_neg hor]
    rfl

/-- C1 witness: a 20-word query containing "compare" gets the complexity
branch; a 5-word query containing "compare" gets the comparison branch;
a plain 5-word query gets the defaults. -/
theorem mmr_param_derivation_witness :
    getMMRSearchParams
      "compare a b c d e f g h i j k l m n o p q r s" = complexParams
    ∧ getMMRSearchParams "compare home and auto policy" = compareParams
    ∧ getMMRSearchParams "what is my deductible amount" = defaultParams :=
  ⟨(mmr_param_derivation _).1 (by decide),
   (mmr_param_derivation _).2.1 (by decide) (Or.inl (by decide)),
   (mmr_param_derivation _).2.2 (by decide) (by decide) (by decide)⟩

/-- C10: every branch of the derivation leaves `filter_similarity` at 0.85. -/
theorem mmr_filter_similarity_constant (query : String) :
    (getMMRSearchParams query).filter_similarity = 85/100 := by
  have hq : q085 = 85/100 := q_constant_values.2.2.2
  unfold getMMRSearchParams
  split
  · exact hq
  · split <;> exact hq

/-! ## Conversation memory (src/rag_engine.py lines 17-22, 90-101)

`ConversationBufferWindowMemory` is a langchain class; only its configuration
(`k = 5`) appears in the repository. The memory itself is modelled from the
spec. -/

/-- The last `n` elements of a list, in order. -/
def lastN {α : Type} (n : Nat) (l : List α) : List α :=
  (l.reverse.take n).reverse

/-- A message stored in `memory.chat_memory.messages`: langchain
`HumanMessage` or `AIMessage`. -/
inductive ChatMessage
  | human (content : String)
  | ai (content : String)
deriving DecidableEq

/-- Modelled from the spec: `ConversationBufferWindowMemory` (external
langchain class, configured with `k = 5` in `RAGEngine.__init__`). The spec
describes it as "an ordered, size-bounded sequence of turns (query, answer)
pairs" holding "at most K most-recent turns". -/
structure ConversationMemory where
  k : Nat
  turns : List (String × String)
deriving DecidableEq

/-- Modelled from the spec: appending a turn evicts the oldest turns first
once the bound `k` is exceeded, keeping the `k` most recent. -/
def saveTurn (m : ConversationMemory) (query answer : String) : ConversationMemory :=
  { m with turns := lastN m.k (m.turns ++ [(query, answer)]) }

/-- The memory as configured in `RAGEngine.__init__`: `k = 5`, empty. -/
def initMemory : ConversationMemory := ⟨5, []⟩

/-- The message list `memory.chat_memory.messages`: one `HumanMessage` and
one `AIMessage` per stored turn, in chronological order. -/
def chatMessages (m : ConversationMemory) : List ChatMessage :=
  m.turns.flatMap (fun t => [ChatMessage.human t.1, ChatMessage.ai t.2])

/-- One entry of the list returned by `RAGEngine.get_chat_history`. -/
structure HistoryEntry where
  role : String
  content : String
deriving DecidableEq

/-- The role tagging done inside `get_chat_history`'s loop
(src/rag_engine.py lines 95-99). -/
def roleTag : ChatMessage → HistoryEntry
  | ChatMessage.human c => ⟨"user", c⟩
  | ChatMessage.ai c => ⟨"assistant", c⟩

/-- `RAGEngine.get_chat_history` (src/rag_engine.py lines 90-101): reads the
message list and maps each message to a role-tagged entry.  A pure function
of the memory: it has no side effects. -/
def get_chat_history (m : ConversationMemory) : List HistoryEntry :=
  (chatMessages m).map roleTag

/-- A sequence of successful queries, as seen by the memory: each round
appends its (query, answer) turn. -/
def runQueries (m : ConversationMemory) (ts : List (String × String)) : ConversationMemory :=
  ts.foldl (fun acc t => saveTurn acc t.1 t.2) m

theorem lastN_length {α : Type} (n : Nat) (l : List α) :
    (lastN n l).length = min n l.length := by
  simp [lastN]

theorem lastN_of_le {α : Type} (n : Nat) (l : List α) (h : l.length ≤ n) :
    lastN n l = l := by
  unfold lastN
  rw [List.take_of_length_le (by simpa using h), List.reverse_reverse]

theorem lastN_append_lastN {α : Type} (k : Nat) (l r : List α) :
    lastN k (lastN k l ++ r) = lastN k (l ++ r) := by
  unfold lastN
  rw [List.reverse_append, List.reverse_reverse, List.reverse_append]
  congr 1
  rw [List.take_append_eq_append_take, List.take_append_eq_append_take,
    List.take_take]
  congr 1
  have : min (k - r.reverse.length) k = k - r.reverse.length := by omega
  rw [this]

theorem runQueries_turns (ts : List (String × String)) :
    ∀ m : ConversationMemory, m.turns.length ≤ m.k →
      runQueries m ts = ⟨m.k, lastN m.k (m.turns ++ ts)⟩ := by
  induction ts with
  | nil =>
      intro m hm
      cases m with
      | mk k turns =>
          simp only [runQueries, List.foldl_nil, List.append_nil]
          exact congrArg _ (lastN_of_le _ _ hm).symm
  | cons t rest ih =>
      intro m hm
      have hstep : runQueries m (t :: rest) = runQueries (saveTurn m t.1 t.2) rest := by
        simp [runQueries]
      rw [hstep, ih (saveTurn m t.1 t.2) (by simp [saveTurn, lastN_length])]
      simp only [saveTurn]
      rw [lastN_append_lastN]
      simp

/-- C4: starting from the fresh `k = 5` memory, after any sequence of
successful queries the memory holds at most 5 turns, namely exactly the most
recent ones in chronological order; in particular after more than 5 queries,
`get_chat_history` returns exactly the 5 most recent turns, each expanded to
a "user"-tagged and an "assistant"-tagged entry in chronological order
(`get_chat_history` is a pure function of the memory, so it has no side
effects). -/
theorem memory_window_bound (ts : List (String × String)) :
    (runQueries initMemory ts).turns.length ≤ 5
    ∧ (runQueries initMemory ts).turns = lastN 5 ts
    ∧ (ts.length > 5 →
        (lastN 5 ts).length = 5
        ∧ get_chat_history (runQueries initMemory ts) =
            (lastN 5 ts).flatMap
              (fun t => [⟨"user", t.1⟩, ⟨"assistant", t.2⟩])) := by
  have h := runQueries_turns ts initMemory (by simp [initMemory])
  have hturns : (runQueries initMemory ts).turns = lastN 5 ts := by
    rw [h]; simp [initMemory]
  refine ⟨?_, hturns, ?_⟩
  · rw [hturns, lastN_length]; omega
  · intro hlen
    constructor
    · rw [lastN_length]; omega
    · rw [get_chat_history, chatMessages, hturns, List.map_flatMap]
      rfl

/-- C4 witness: six queries against the fresh memory leave exactly the last
five turns, and `get_chat_history` reports them user/assistant-tagged. -/
theorem memory_window_bound_witness :
    let ts := [("q1", "a1"), ("q2", "a2"), ("q3", "a3"),
               ("q4", "a4"), ("q5", "a5"), ("q6", "a6")]
    (lastN 5 ts).length = 5
    ∧ get_chat_history (runQueries initMemory ts) =
        (lastN 5 ts).flatMap
          (fun t => [⟨"user", t.1⟩, ⟨"assistant", t.2⟩]) :=
  (memory_window_bound _).2.2 (by decide)

/-! ## The RAG engine (src/rag_engine.py lines 8-88)

`process_query` guards on an absent vector store, recomputes the retriever's
`search_kwargs` from the incoming query, and runs the conversational QA
chain. The chain itself (`ConversationalRetrievalChain`) is external; its
round structure (condense when memory is non-empty, retrieve, generate, save
the turn) is modelled from the spec, with the external service calls made
explicit. -/

/-- A chunk held by the vector store / returned as a source document. -/
structure Document where
  content : List Char
  source : String
  page : Option Nat
deriving DecidableEq

/-- Modelled from the spec: the Chroma vector store, seen as the collection
of inserted chunks (its embedding internals are an external service). -/
structure VectorStore where
  docs : List Document
deriving DecidableEq

/-- One blocking round-trip to an external service. -/
inductive ServiceCall
  | embedding
  | generation
deriving DecidableEq

/-- Modelled from the spec: the behaviour of the external language model and
of MMR retrieval, abstracted as arbitrary functions so that theorems hold for
every possible service behaviour. -/
structure ChainOracle where
  condense : List (String × String) → String → String
  retrieve : List Document → MMRParams → String → List Document
  generate : List Document → List (String × String) → String → String

/-- The engine state: `self.vector_store`, `self.memory`, and the retriever's
current `search_kwargs` (initialised from the `"placeholder"` query in
`_create_qa_chain`). -/
structure RAGEngine where
  vector_store : Option VectorStore
  memory : ConversationMemory
  search_kwargs : MMRParams
deriving DecidableEq

/-- `RAGEngine.__init__`: fresh `k = 5` memory, retriever parameters derived
from the `"placeholder"` query. -/
def initEngine (vs : Option VectorStore) : RAGEngine :=
  ⟨vs, initMemory, getMMRSearchParams "placeholder"⟩

/-- Modelled from the spec: the standalone question used by the chain — the
raw query when the memory is empty, otherwise the condense-step rewrite. -/
def standaloneQuestion (oracle : ChainOracle) (mem : ConversationMemory)
    (question : String) : String :=
  if mem.turns.isEmpty then question else oracle.condense mem.turns question

/-- The value returned by `process_query`, together with the updated engine
state and the list of external service calls made. -/
structure QueryResult where
  answer : String
  sources : List Document
  engine : RAGEngine
  calls : List ServiceCall
deriving DecidableEq

/-- Modelled from the spec: one run of the conversational QA chain
(`self.qa_chain({"question": query})`): condense the question against the
memory when it is non-empty (one generation call), retrieve with the
retriever's current `search_kwargs` (one embedding call for the query),
generate the grounded answer (one generation call), then save the (original
query, answer) turn into the memory. -/
def runChain (oracle : ChainOracle) (vs : VectorStore) (params : MMRParams)
    (mem : ConversationMemory) (question : String) :
    String × List Document × ConversationMemory × List ServiceCall :=
  let standalone := standaloneQuestion oracle mem question
  let condCalls : List ServiceCall :=
    if mem.turns.isEmpty then [] else [ServiceCall.generation]
  let docs := oracle.retrieve vs.docs params standalone
  let answer := oracle.generate docs mem.turns standalone
  (answer, docs, saveTurn mem question answer,
    condCalls ++ [ServiceCall.embedding, ServiceCall.generation])

/-- `RAGEngine.process_query` (src/rag_engine.py lines 77-88): short-circuit
on an absent vector store; otherwise set
`self.qa_chain.retriever.search_kwargs = self._get_mmr_search_params(query)`
and run the chain, returning the answer and the source documents. -/
def process_query (oracle : ChainOracle) (eng : RAGEngine) (query : String) :
    QueryResult :=
  match eng.vector_store with
  | none => ⟨"Please upload some documents first.", [], eng, []⟩
  | some vs =>
      let params := getMMRSearchParams query
      let r := runChain oracle vs params eng.memory query
      ⟨r.1, r.2.1, { eng with memory := r.2.2.1, search_kwargs := params }, r.2.2.2⟩

/-- C3: with no vector store, `process_query` returns the fixed
prompt-for-documents message and an empty source list, leaves the engine
untouched, and makes zero external service calls — a normal return, not an
error (the function is total). -/
theorem empty_index_short_circuit (oracle : ChainOracle) (eng : RAGEngine)
    (query : String) (h : eng.vector_store = none) :
    process_query oracle eng query =
      ⟨"Please upload some documents first.", [], eng, []⟩ := by
  unfold process_query
  rw [h]

/-- C3 witness: the short-circuit on a concrete index-less engine. -/
theorem empty_index_short_circuit_witness :
    process_query ⟨fun _ q => q, fun d _ _ => d, fun _ _ _ => "ans"⟩
        (initEngine none) "what is covered" =
      ⟨"Please upload some documents first.", [], initEngine none, []⟩ :=
  empty_index_short_circuit _ _ _ rfl

/-- C2 (amended): the retrieval parameters used by `process_query` are the
ones derived from the raw incoming query text — they are stored into the
retriever's `search_kwargs` and passed to retrieval — while the retrieval
itself runs on the standalone (rewritten) question. -/
theorem retrieval_params_from_raw_query (oracle : ChainOracle)
    (eng : RAGEngine) (vs : VectorStore) (query : String)
    (h : eng.vector_store = some vs) :
    (process_query oracle eng query).engine.search_kwargs
        = getMMRSearchParams query
    ∧ (process_query oracle eng query).sources
        = oracle.retrieve vs.docs (getMMRSearchParams query)
            (standaloneQuestion oracle eng.memory query) := by
  unfold process_query
  rw [h]
  exact ⟨rfl, rfl⟩

/-- A concrete oracle for the C2 counterexample: the condense step rewrites
every follow-up into a fixed 16-word standalone question, and retrieval
returns a marker document only when called with the default `k = 3`
parameters. -/
def cexOracle : ChainOracle where
  condense := fun _ _ =>
    "please list the insurance coverages that apply to dental procedures for the policy we discussed before"
  retrieve := fun docs params _ => if params.k = 3 then docs else []
  generate := fun _ _ _ => "some answer"

/-- The engine state for the C2 counterexample: one stored turn (so the
memory is non-empty and the condense rewrite fires), one indexed chunk. -/
def cexEngine : RAGEngine where
  vector_store := some ⟨[⟨"dental chunk".toList, "policy.txt", none⟩]⟩
  memory := ⟨5, [("what does my policy cover", "it covers medical care")]⟩
  search_kwargs := getMMRSearchParams "placeholder"

/-- C2 counterexample: for the follow-up query "what about dental" against a
non-empty memory, the parameters used for retrieval are the default ones
derived from the 3-word raw query, not the complex-branch ones derived from
the 16-word standalone rewrite — so they differ from what the claim
prescribes (and retrieval demonstrably ran with the raw-query parameters,
since the marker document was returned). -/
theorem retrieval_params_cex :
    (process_query cexOracle cexEngine "what about dental").engine.search_kwargs
        ≠ getMMRSearchParams
            (standaloneQuestion cexOracle cexEngine.memory "what about dental")
    ∧ (process_query cexOracle cexEngine "what about dental").engine.search_kwargs
        = defaultParams
    ∧ getMMRSearchParams
        (standaloneQuestion cexOracle cexEngine.memory "what about dental")
        = complexParams
    ∧ (process_query cexOracle cexEngine "what about dental").sources
        = [⟨"dental chunk".toList, "policy.txt", none⟩] := by
  refine ⟨?_, by decide, by decide, by decide⟩
  decide

/-- C2 (amended) witness: on a concrete engine with a non-empty memory, the
stored `search_kwargs` equal the raw-query derivation. -/
theorem retrieval_params_from_raw_query_witness :
    (process_query cexOracle cexEngine "what about dental").engine.search_kwargs
      = getMMRSearchParams "what about dental" :=
  (retrieval_params_from_raw_query cexOracle cexEngine _ "what about dental" rfl).1

/-! ## The text splitter (src/document_processor.py lines 30-35)

`RecursiveCharacterTextSplitter` is a langchain class; the repository only
configures it (`chunk_size=1000`, `chunk_overlap=200`,
`separators=["\n\n", "\n", ".", " ", ""]`, `length_function=len`). The
splitter itself is modelled from the spec: recursively attempt to split on
the most semantic separator available, in the configured priority order,
falling back to a harder split only when a softer one cannot keep a chunk
within the size limit; merge the resulting fragments greedily, never letting
an emitted chunk exceed the maximum size, with consecutive chunks sharing an
overlap region of at most the configured overlap length. -/

/-- Fuel-driven character-level chunking: the splitter's final, `""`
separator, cutting the text into blocks of at most `n` characters. The fuel
is always instantiated with the text length, which suffices. -/
def chunksOfGo (n : Nat) : Nat → List Char → List (List Char)
  | _, [] => []
  | 0, _ => []
  | fuel + 1, c :: cs => (c :: cs.take (n - 1)) :: chunksOfGo n fuel (cs.drop (n - 1))

/-- Character-level split into blocks of at most `n` characters. -/
def chunksOf (n : Nat) (l : List Char) : List (List Char) :=
  chunksOfGo n l.length l

/-- Fuel-driven split of `rem` at every occurrence of `sep`, keeping each
separator attached to the piece it terminates; `acc` holds the reversed
current piece. -/
def splitKeepSepGo (sep : List Char) : Nat → List Char → List Char → List (List Char)
  | 0, rem, acc => [acc.reverse ++ rem]
  | _ + 1, [], acc => [acc.reverse]
  | fuel + 1, c :: cs, acc =>
      if sep ≠ [] ∧ List.isPrefixOf sep (c :: cs) = true then
        (acc.reverse ++ sep) :: splitKeepSepGo sep fuel ((c :: cs).drop sep.length) []
      else
        splitKeepSepGo sep fuel cs (c :: acc)

/-- Split `text` at every occurrence of `sep` (separators kept). -/
def splitKeepSep (sep : List Char) (text : List Char) : List (List Char) :=
  splitKeepSepGo sep text.length text []

/-- Modelled from the spec: the recursive descent over the separator
priority list. A text that fits within the size limit is left whole;
otherwise it is split on the current separator, and only the pieces that
still exceed the limit are re-split with the next (harder) separator; after
the last separator comes the character-level split. -/
def fragments : List (List Char) → Nat → List Char → List (List Char)
  | [], n, text => chunksOf n text
  | sep :: rest, n, text =>
      if text.length ≤ n then [text]
      else
        (splitKeepSep sep text).flatMap (fun piece =>
          if piece.length ≤ n then [piece] else fragments rest n piece)

/-- Replace the overlap marker of the head element. -/
def markHead (j : Nat) : List (Nat × List Char) → List (Nat × List Char)
  | [] => []
  | p :: t => (j, p.2) :: t

/-- Modelled from the spec: greedy merging of fragments into chunks of at
most `size` characters. When a chunk is emitted, the next chunk is started
with the longest tail of the emitted chunk that both fits in the overlap
budget `ovlp` and leaves room for the incoming fragment. Each output element
carries the length of the overlap region it shares with the previous chunk
(0 for the first chunk). -/
def mergeLoopI (size ovlp : Nat) : List Char → List (List Char) → List (Nat × List Char)
  | cur, [] => if cur = [] then [] else [(0, cur)]
  | cur, f :: fs =>
      if cur.length + f.length ≤ size then
        mergeLoopI size ovlp (cur ++ f) fs
      else
        (0, cur) ::
          markHead (lastN (min ovlp (size - f.length)) cur).length
            (mergeLoopI size ovlp (lastN (min ovlp (size - f.length)) cur ++ f) fs)

/-- Merge a fragment list starting from an empty current chunk. -/
def mergeFragsI (size ovlp : Nat) (frags : List (List Char)) : List (Nat × List Char) :=
  mergeLoopI size ovlp [] frags

/-- The separator priority list configured in `DocumentProcessor.__init__`:
paragraph break, line break, sentence end, word boundary (the final `""`
entry is the character-level base case of `fragments`). -/
def configuredSeparators : List (List Char) :=
  [['\n', '\n'], ['\n'], ['.'], [' ']]

/-- The configured splitter (`chunk_size=1000`, `chunk_overlap=200`), with
each chunk annotated by the length of its overlap with the previous chunk. -/
def splitTextI (text : List Char) : List (Nat × List Char) :=
  mergeFragsI 1000 200 (fragments configuredSeparators 1000 text)

/-- `self.text_splitter.split_text`: the emitted chunks. -/
def text_splitter (text : List Char) : List (List Char) :=
  (splitTextI text).map Prod.snd

theorem chunksOfGo_length_le (n : Nat) (hn : 1 ≤ n) :
    ∀ (fuel : Nat) (l : List Char), ∀ c ∈ chunksOfGo n fuel l, c.length ≤ n := by
  intro fuel
  induction fuel with
  | zero =>
      intro l c hc
      cases l <;> simp [chunksOfGo] at hc
  | succ fuel ih =>
      intro l c hc
      cases l with
      | nil => simp [chunksOfGo] at hc
      | cons a cs =>
          simp only [chunksOfGo, List.mem_cons] at hc
          rcases hc with rfl | hc
          · simp only [List.length_cons, List.length_take]
            omega
          · exact ih _ _ hc

theorem fragments_length_le (n : Nat) (hn : 1 ≤ n) :
    ∀ (seps : List (List Char)) (text : List Char),
      ∀ f ∈ fragments seps n text, f.length ≤ n := by
  intro seps
  induction seps with
  | nil =>
      intro text f hf
      unfold fragments chunksOf at hf
      exact chunksOfGo_length_le n hn _ _ f hf
  | cons sep rest ih =>
      intro text f hf
      unfold fragments at hf
      by_cases h : text.length ≤ n
      · rw [if_pos h] at hf
        simp at hf
        subst hf
        exact h
      · rw [if_neg h, List.mem_flatMap] at hf
        obtain ⟨piece, _, hf⟩ := hf
        by_cases hp : piece.length ≤ n
        · rw [if_pos hp] at hf
          simp at hf
          subst hf
          exact hp
        · rw [if_neg hp] at hf
          exact ih piece f hf

theorem isPrefixOf_append_drop :
    ∀ (xs ys : List Char), List.isPrefixOf xs ys = true →
      xs ++ ys.drop xs.length = ys := by
  intro xs
  induction xs with
  | nil => intro ys _; simp
  | cons a as ih =>
      intro ys h
      cases ys with
      | nil => simp [List.isPrefixOf] at h
      | cons b bs =>
          simp only [List.isPrefixOf, Bool.and_eq_true, beq_iff_eq] at h
          simp only [List.length_cons, List.cons_append, List.drop_succ_cons]
          rw [h.1, ih bs h.2]

theorem splitKeepSepGo_flatten (sep : List Char) :
    ∀ (fuel : Nat) (rem acc : List Char),
      (splitKeepSepGo sep fuel rem acc).flatten = acc.reverse ++ rem := by
  intro fuel
  induction fuel with
  | zero => intro rem acc; simp [splitKeepSepGo]
  | succ fuel ih =>
      intro rem acc
      cases rem with
      | nil => simp [splitKeepSepGo]
      | cons c cs =>
          by_cases h : sep ≠ [] ∧ List.isPrefixOf sep (c :: cs) = true
          · simp only [splitKeepSepGo, if_pos h, List.flatten_cons, ih]
            simp only [List.reverse_nil, List.nil_append, List.append_assoc]
            rw [isPrefixOf_append_drop sep (c :: cs) h.2]
          · simp only [splitKeepSepGo, if_neg h, ih]
            simp

theorem splitKeepSep_flatten (sep text : List Char) :
    (splitKeepSep sep text).flatten = text := by
  unfold splitKeepSep
  rw [splitKeepSepGo_flatten]
  simp

theorem chunksOfGo_flatten (n : Nat) :
    ∀ (fuel : Nat) (l : List Char), l.length ≤ fuel →
      (chunksOfGo n fuel l).flatten = l := by
  intro fuel
  induction fuel with
  | zero =>
      intro l hl
      have hnil : l = [] := List.length_eq_zero.mp (Nat.le_zero.mp hl)
      subst hnil
      simp [chunksOfGo]
  | succ fuel ih =>
      intro l hl
      cases l with
      | nil => simp [chunksOfGo]
      | cons a cs =>
          simp only [chunksOfGo, List.flatten_cons]
          rw [ih _ (by simp at hl ⊢; omega)]
          simp [List.take_append_drop]

theorem flatten_flatMap_id {α : Type} (g : List α → List (List α)) :
    ∀ (l : List (List α)), (∀ x ∈ l, (g x).flatten = x) →
      (l.flatMap g).flatten = l.flatten := by
  intro l
  induction l with
  | nil => intro _; simp
  | cons p ps ih =>
      intro hg
      simp only [List.flatMap_cons, List.flatten_append, List.flatten_cons]
      rw [hg p (List.mem_cons_self _ _), ih (fun x hx => hg x (List.mem_cons_of_mem _ hx))]

theorem fragments_flatten (n : Nat) :
    ∀ (seps : List (List Char)) (text : List Char),
      (fragments seps n text).flatten = text := by
  intro seps
  induction seps with
  | nil =>
      intro text
      unfold fragments chunksOf
      exact chunksOfGo_flatten n _ _ le_rfl
  | cons sep rest ih =>
      intro text
      unfold fragments
      by_cases h : text.length ≤ n
      · rw [if_pos h]; simp
      · rw [if_neg h]
        rw [flatten_flatMap_id]
        · exact splitKeepSep_flatten sep text
        · intro piece _
          by_cases hp : piece.length ≤ n
          · rw [if_pos hp]; simp
          · rw [if_neg hp]; exact ih piece

theorem lastN_lastN_length {α : Type} (m : Nat) (l : List α) :
    lastN (lastN m l).length l = lastN m l := by
  unfold lastN
  rw [List.length_reverse, List.length_take, List.length_reverse]
  congr 1
  rw [List.take_eq_take]
  rw [List.length_reverse]
  omega

/-- Two consecutive instrumented chunks share their marked overlap region:
the second chunk's first `j` characters, `j` its marker, are exactly the
last `j` characters of the first chunk. -/
def overlapRel (a b : Nat × List Char) : Prop :=
  b.2.take b.1 = lastN b.1 a.2

/-- Concatenating the chunks after removing each one's marked overlap
region. -/
def dropOverlaps (l : List (Nat × List Char)) : List Char :=
  (l.map (fun p => p.2.drop p.1)).flatten

theorem mergeLoopI_head (size ovlp : Nat) :
    ∀ (frags : List (List Char)) (cur : List Char),
      mergeLoopI size ovlp cur frags = []
      ∨ ∃ t rest, mergeLoopI size ovlp cur frags = (0, cur ++ t) :: rest := by
  intro frags
  induction frags with
  | nil =>
      intro cur
      by_cases h : cur = []
      · left; simp [mergeLoopI, h]
      · right; exact ⟨[], [], by simp [mergeLoopI, h]⟩
  | cons f fs ih =>
      intro cur
      by_cases h : cur.length + f.length ≤ size
      · rcases ih (cur ++ f) with h1 | ⟨t, rest, h1⟩
        · left
          simp only [mergeLoopI, if_pos h]
          exact h1
        · right
          refine ⟨f ++ t, rest, ?_⟩
          simp only [mergeLoopI, if_pos h]
          rw [h1, List.append_assoc]
      · right
        refine ⟨[], markHead (lastN (min ovlp (size - f.length)) cur).length
          (mergeLoopI size ovlp (lastN (min ovlp (size - f.length)) cur ++ f) fs), ?_⟩
        simp only [mergeLoopI, if_neg h, List.append_nil]

theorem mergeLoopI_chunk_le (size ovlp : Nat) :
    ∀ (frags : List (List Char)) (cur : List Char),
      cur.length ≤ size → (∀ f ∈ frags, f.length ≤ size) →
      ∀ p ∈ mergeLoopI size ovlp cur frags, p.2.length ≤ size := by
  intro frags
  induction frags with
  | nil =>
      intro cur hcur _ p hp
      by_cases h : cur = []
      · simp [mergeLoopI, h] at hp
      · simp only [mergeLoopI, if_neg h, List.mem_singleton] at hp
        subst hp
        exact hcur
  | cons f fs ih =>
      intro cur hcur hfs p hp
      have hf : f.length ≤ size := hfs f (List.mem_cons_self _ _)
      have hfs' : ∀ g ∈ fs, g.length ≤ size :=
        fun g hg => hfs g (List.mem_cons_of_mem _ hg)
      by_cases h : cur.length + f.length ≤ size
      · simp only [mergeLoopI, if_pos h] at hp
        exact ih (cur ++ f) (by simp; omega) hfs' p hp
      · simp only [mergeLoopI, if_neg h, List.mem_cons] at hp
        rcases hp with rfl | hp
        · exact hcur
        · have hkeep : (lastN (min ovlp (size - f.length)) cur ++ f).length ≤ size := by
            rw [List.length_append, lastN_length]
            omega
          have hrest := ih (lastN (min ovlp (size - f.length)) cur ++ f) hkeep hfs'
          rcases hrec : mergeLoopI size ovlp (lastN (min ovlp (size - f.length)) cur ++ f) fs with
            _ | ⟨q, t⟩
          · rw [hrec] at hp
            simp [markHead] at hp
          · rw [hrec] at hp
            simp only [markHead, List.mem_cons] at hp
            rcases hp with rfl | hp
            · exact hrest q (by rw [hrec]; exact List.mem_cons_self _ _)
            · exact hrest p (by rw [hrec]; exact List.mem_cons_of_mem _ hp)

theorem mergeLoopI_marker_le (size ovlp : Nat) :
    ∀ (frags : List (List Char)) (cur : List Char),
      ∀ p ∈ mergeLoopI size ovlp cur frags, p.1 ≤ ovlp := by
  intro frags
  induction frags with
  | nil =>
      intro cur p hp
      by_cases h : cur = []
      · simp [mergeLoopI, h] at hp
      · simp only [mergeLoopI, if_neg h, List.mem_singleton] at hp
        subst hp
        exact Nat.zero_le _
  | cons f fs ih =>
      intro cur p hp
      by_cases h : cur.length + f.length ≤ size
      · simp only [mergeLoopI, if_pos h] at hp
        exact ih (cur ++ f) p hp
      · simp only [mergeLoopI, if_neg h, List.mem_cons] at hp
        rcases hp with rfl | hp
        · exact Nat.zero_le _
        · rcases hrec : mergeLoopI size ovlp (lastN (min ovlp (size - f.length)) cur ++ f) fs with
            _ | ⟨q, t⟩
          · rw [hrec] at hp
            simp [markHead] at hp
          · rw [hrec] at hp
            simp only [markHead, List.mem_cons] at hp
            rcases hp with rfl | hp
            · rw [lastN_length]
              simp
            · exact ih _ p (by rw [hrec]; exact List.mem_cons_of_mem _ hp)

theorem chain_replace_marker (j j' : Nat) (X : List Char)
    (rs : List (Nat × List Char))
    (h : List.Chain' overlapRel ((j, X) :: rs)) :
    List.Chain' overlapRel ((j', X) :: rs) := by
  cases rs with
  | nil => simp
  | cons c t =>
      rw [List.chain'_cons] at h ⊢
      exact ⟨h.1, h.2⟩

theorem mergeLoopI_chain (size ovlp : Nat) :
    ∀ (frags : List (List Char)) (cur : List Char),
      List.Chain' overlapRel (mergeLoopI size ovlp cur frags) := by
  intro frags
  induction frags with
  | nil =>
      intro cur
      by_cases h : cur = [] <;> simp [mergeLoopI, h]
  | cons f fs ih =>
      intro cur
      by_cases h : cur.length + f.length ≤ size
      · simp only [mergeLoopI, if_pos h]
        exact ih (cur ++ f)
      · simp only [mergeLoopI, if_neg h]
        rcases mergeLoopI_head size ovlp fs
            (lastN (min ovlp (size - f.length)) cur ++ f) with hnil | ⟨t, rs, heq⟩
        · rw [hnil]
          simp [markHead]
        · have hchain := ih (lastN (min ovlp (size - f.length)) cur ++ f)
          rw [heq] at hchain
          rw [heq]
          simp only [markHead]
          rw [List.chain'_cons]
          constructor
          · show ((lastN (min ovlp (size - f.length)) cur ++ f) ++ t).take
                (lastN (min ovlp (size - f.length)) cur).length
              = lastN (lastN (min ovlp (size - f.length)) cur).length cur
            rw [List.append_assoc, List.take_left, lastN_lastN_length]
          · exact chain_replace_marker 0 _ _ rs hchain

theorem mergeLoopI_reconstruct (size ovlp : Nat) :
    ∀ (frags : List (List Char)) (cur : List Char),
      dropOverlaps (mergeLoopI size ovlp cur frags) = cur ++ frags.flatten := by
  intro frags
  induction frags with
  | nil =>
      intro cur
      by_cases h : cur = [] <;> simp [mergeLoopI, h, dropOverlaps]
  | cons f fs ih =>
      intro cur
      by_cases h : cur.length + f.length ≤ size
      · simp only [mergeLoopI, if_pos h]
        rw [ih (cur ++ f)]
        simp
      · simp only [mergeLoopI, if_neg h]
        rcases mergeLoopI_head size ovlp fs
            (lastN (min ovlp (size - f.length)) cur ++ f) with hnil | ⟨t, rs, heq⟩
        · have hih := ih (lastN (min ovlp (size - f.length)) cur ++ f)
          rw [hnil] at hih
          simp only [dropOverlaps, List.map_nil, List.flatten_nil] at hih
          have hempty := List.append_eq_nil.mp hih.symm
          have hf : f = [] := (List.append_eq_nil.mp hempty.1).2
          rw [hnil]
          simp [markHead, dropOverlaps, hf, hempty.2]
        · have hih := ih (lastN (min ovlp (size - f.length)) cur ++ f)
          rw [heq] at hih
          simp only [dropOverlaps, List.map_cons, List.flatten_cons,
            List.drop_zero] at hih ⊢
          have ht : t ++ (rs.map (fun p => p.2.drop p.1)).flatten = fs.flatten := by
            rw [List.append_assoc] at hih
            exact List.append_cancel_left hih
          rw [heq]
          simp only [markHead, List.map_cons, List.flatten_cons]
          rw [List.append_assoc, List.drop_left]
          rw [List.append_assoc f t, ht]

theorem flatMap_singleton_id {α : Type} (l : List α) (g : α → List α)
    (hg : ∀ x ∈ l, g x = [x]) : l.flatMap g = l := by
  induction l with
  | nil => simp
  | cons p ps ih =>
      rw [List.flatMap_cons, hg p (List.mem_cons_self _ _),
        ih (fun x hx => hg x (List.mem_cons_of_mem _ hx))]
      rfl

/-- C5: for the splitter as configured in `DocumentProcessor.__init__`
(`chunk_size=1000`, `chunk_overlap=200`): every emitted chunk has length at
most 1000; every chunk's overlap with its predecessor is at most 200
characters, and consecutive chunks really share that overlap region (the
successor's first `j` characters are the predecessor's last `j`); removing
each chunk's overlap region and concatenating reproduces the input text
exactly; a non-empty text already within the limit is emitted whole,
unsplit; and the splitter consults a harder separator only when needed — if
splitting on the current separator alone keeps every piece within the
limit, those pieces are the fragments and no harder separator is used. -/
theorem splitter_spec (text : List Char) :
    (∀ c ∈ text_splitter text, c.length ≤ 1000)
    ∧ (∀ p ∈ splitTextI text, p.1 ≤ 200)
    ∧ List.Chain' overlapRel (splitTextI text)
    ∧ dropOverlaps (splitTextI text) = text
    ∧ (0 < text.length → text.length ≤ 1000 → text_splitter text = [text])
    ∧ (∀ sep rest, 1000 < text.length →
        (∀ piece ∈ splitKeepSep sep text, piece.length ≤ 1000) →
        fragments (sep :: rest) 1000 text = splitKeepSep sep text) := by
  refine ⟨?_, ?_, ?_, ?_, ?_, ?_⟩
  · intro c hc
    rw [text_splitter, List.mem_map] at hc
    obtain ⟨p, hp, rfl⟩ := hc
    exact mergeLoopI_chunk_le 1000 200 _ [] (by simp)
      (fragments_length_le 1000 (by omega) _ text) p hp
  · intro p hp
    exact mergeLoopI_marker_le 1000 200 _ [] p hp
  · exact mergeLoopI_chain 1000 200 _ []
  · rw [splitTextI, mergeFragsI, mergeLoopI_reconstruct]
    rw [fragments_flatten]
    rfl
  · intro hpos hle
    have htne : text ≠ [] := by
      intro hnil
      rw [hnil] at hpos
      simp at hpos
    have hfr : fragments configuredSeparators 1000 text = [text] := by
      rw [configuredSeparators]
      unfold fragments
      rw [if_pos hle]
    rw [text_splitter, splitTextI, mergeFragsI, hfr]
    simp [mergeLoopI, htne, hle]
  · intro sep rest hlen hpieces
    unfold fragments
    rw [if_neg (by omega)]
    exact flatMap_singleton_id _ _
      (fun piece hp => by rw [if_pos (hpieces piece hp)])

/-- A 1202-character document with a paragraph break in the middle, for the
C5 witness. -/
def bigText : List Char :=
  List.replicate 600 'a' ++ ['\n', '\n'] ++ List.replicate 600 'a'

set_option maxRecDepth 40000 in
/-- C5 witness: a short text is emitted as a single chunk; an oversize text
whose paragraph split already fits the limit is fragmented exactly at the
paragraph separator. -/
theorem splitter_spec_witness :
    text_splitter "short policy text".toList = ["short policy text".toList]
    ∧ fragments (['\n', '\n'] :: [['\n'], ['.'], [' ']]) 1000 bigText
        = splitKeepSep ['\n', '\n'] bigText :=
  ⟨(splitter_spec _).2.2.2.2.1 (by decide) (by decide),
   (splitter_spec bigText).2.2.2.2.2 ['\n', '\n'] [['\n'], ['.'], [' ']]
     (by decide) (by decide)⟩

/-! ## Document ingestion (src/document_processor.py lines 50-73) -/

/-- The two loaders `process_file` can construct: `PyPDFLoader` and
`TextLoader`. -/
inductive Loader
  | pdf
  | text
deriving DecidableEq

/-- The loader choice in src/document_processor.py lines 57-60:
`uploaded_file.name.lower().endswith('.pdf')` picks the PDF loader, every
other filename falls through to the text loader. -/
def chooseLoader (filename : String) : Loader :=
  if List.isSuffixOf ".pdf".toList (pyLower filename) then Loader.pdf
  else Loader.text

/-- A raw document as produced by a loader (`PyPDFLoader` yields one per
page with a page number, `TextLoader` one per file). -/
structure RawDoc where
  content : List Char
  page : Option Nat
deriving DecidableEq

/-- The error kinds the spec assigns to the ingestion boundary. Failures of
the external loaders are modelled as `documentLoadError` values. -/
inductive IngestError
  | unsupportedFormatError
  | documentLoadError
deriving DecidableEq

/-- Metadata attachment and splitting (src/document_processor.py lines
64-69): every loaded document gets `metadata["source"] = uploaded_file.name`
and is then split; each chunk keeps the metadata. -/
def split_documents (filename : String) (docs : List RawDoc) : List Document :=
  docs.flatMap (fun d =>
    (text_splitter d.content).map (fun c => ⟨c, filename, d.page⟩))

/-- `DocumentProcessor.process_file`: choose a loader from the filename,
run it (the loader is external, so its outcome is a parameter), attach the
filename as source metadata and split. Loader failures propagate unchanged.
Note: the code has no unsupported-format branch — every non-`.pdf` name
goes to the text loader. -/
def process_file (filename : String)
    (load : Loader → Except IngestError (List RawDoc)) :
    Except IngestError (List Document) :=
  match load (chooseLoader filename) with
  | Except.error e => Except.error e
  | Except.ok docs => Except.ok (split_documents filename docs)

/-- Decidable equality for `Except` results, so that concrete runs of
`process_file` can be checked by `decide`. -/
instance exceptDecEq {e a : Type} [DecidableEq e] [DecidableEq a] :
    DecidableEq (Except e a) := fun x y =>
  match x, y with
  | Except.error u, Except.error v =>
      if h : u = v then isTrue (by rw [h])
      else isFalse (fun hh => h (Except.error.inj hh))
  | Except.error _, Except.ok _ => isFalse (fun hh => Except.noConfusion hh)
  | Except.ok _, Except.error _ => isFalse (fun hh => Except.noConfusion hh)
  | Except.ok u, Except.ok v =>
      if h : u = v then isTrue (by rw [h])
      else isFalse (fun hh => h (Except.ok.inj hh))

/-- C6 counterexample: a `.docx` upload — an unsupported format per the
spec — is routed to the text loader and, when extraction succeeds, returns
chunks normally instead of failing with an UnsupportedFormatError. -/
theorem unsupported_format_cex :
    chooseLoader "notes.docx" = Loader.text
    ∧ process_file "notes.docx" (fun _ => Except.ok [⟨"hello".toList, none⟩])
        ≠ Except.error IngestError.unsupportedFormatError
    ∧ process_file "notes.docx" (fun _ => Except.ok [⟨"hello".toList, none⟩])
        = Except.ok [⟨"hello".toList, "notes.docx", none⟩] := by
  refine ⟨by decide, ?_, by decide⟩
  intro h
  exact absurd h (by decide)

/-- C6 (amended): `process_file` routes purely by filename suffix — a name
whose lower-cased form ends in `.pdf` selects the PDF loader and every
other name selects the text loader, with no unsupported-format failure at
this layer — and a loader failure propagates unchanged as the error, with
no chunks returned. -/
theorem process_file_routing (filename : String)
    (load : Loader → Except IngestError (List RawDoc)) (e : IngestError) :
    (List.isSuffixOf ".pdf".toList (pyLower filename) = true →
        chooseLoader filename = Loader.pdf)
    ∧ (List.isSuffixOf ".pdf".toList (pyLower filename) = false →
        chooseLoader filename = Loader.text)
    ∧ (load (chooseLoader filename) = Except.error e →
        process_file filename load = Except.error e) := by
  refine ⟨?_, ?_, ?_⟩
  · intro h
    unfold chooseLoader
    rw [if_pos h]
  · intro h
    unfold chooseLoader
    rw [if_neg (by rw [h]; exact Bool.false_ne_true)]
  · intro h
    unfold process_file
    rw [h]

/-- C6 (amended) witness: a `.PDF` name reaches the PDF loader, a `.docx`
name the text loader, and a failing load surfaces the error. -/
theorem process_file_routing_witness :
    chooseLoader "Policy.PDF" = Loader.pdf
    ∧ chooseLoader "notes.docx" = Loader.text
    ∧ process_file "notes.docx"
        (fun _ => Except.error IngestError.documentLoadError)
        = Except.error IngestError.documentLoadError :=
  ⟨(process_file_routing "Policy.PDF"
      (fun _ => Except.error IngestError.documentLoadError)
      IngestError.documentLoadError).1 (by decide),
   (process_file_routing "notes.docx"
      (fun _ => Except.error IngestError.documentLoadError)
      IngestError.documentLoadError).2.1 (by decide),
   (process_file_routing "notes.docx"
      (fun _ => Except.error IngestError.documentLoadError)
      IngestError.documentLoadError).2.2 rfl⟩

/-! ## Vector store update and statistics (src/document_processor.py
lines 75-102) -/

/-- The record returned by `get_document_stats`. -/
structure Stats where
  total_chunks : Nat
deriving DecidableEq

/-- `DocumentProcessor.update_vector_store`: with no existing store, build a
fresh one from the new documents (`Chroma.from_documents`); otherwise insert
them into the existing store (`add_documents`). The Chroma collection is
external and is modelled from the spec as the list of inserted chunks. -/
def update_vector_store (store : Option VectorStore)
    (new_documents : List Document) : VectorStore :=
  match store with
  | none => ⟨new_documents⟩
  | some vs => ⟨vs.docs ++ new_documents⟩

/-- `DocumentProcessor.get_document_stats`: `{"total_chunks": 0}` when the
store is `None`, otherwise the collection count (modelled from the spec as
the number of inserted chunks). A total function: it never raises. -/
def get_document_stats (store : Option VectorStore) : Stats :=
  match store with
  | none => ⟨0⟩
  | some vs => ⟨vs.docs.length⟩

/-- C7: inserting a non-empty batch of chunks grows the reported total by
exactly the batch size, whether the store already existed or was created
fresh by this insertion. -/
theorem incremental_insert (store : Option VectorStore)
    (new_documents : List Document) (h : new_documents ≠ []) :
    (get_document_stats (some (update_vector_store store new_documents))).total_chunks
      = (get_document_stats store).total_chunks + new_documents.length := by
  cases store <;> simp [update_vector_store, get_document_stats]

/-- C7 witness: inserting one chunk into a one-chunk store reports two, and
into an absent store reports one. -/
theorem incremental_insert_witness :
    (get_document_stats (some (update_vector_store
        (some ⟨[⟨"a".toList, "f.txt", none⟩]⟩) [⟨"b".toList, "g.txt", none⟩]))).total_chunks
      = 1 + 1
    ∧ (get_document_stats (some (update_vector_store none
        [⟨"b".toList, "g.txt", none⟩]))).total_chunks = 0 + 1 :=
  ⟨incremental_insert (some ⟨[⟨"a".toList, "f.txt", none⟩]⟩)
      [⟨"b".toList, "g.txt", none⟩] (by decide),
   incremental_insert none [⟨"b".toList, "g.txt", none⟩] (by decide)⟩

/-- C8: statistics on an absent store (`vector_store is None`) report zero
chunks; the function is total, so no error is possible. -/
theorem stats_absent_store : get_document_stats none = ⟨0⟩ := rfl

/-! ## The upload loop (src/app.py lines 69-79) -/

/-- One file in an upload batch: its name and the loader output for its
content. -/
structure Upload where
  name : String
  docs : List RawDoc
deriving DecidableEq

/-- src/app.py lines 69-79: every uploaded file whose name is already among
the session's processed files is skipped — it is not chunked and produces
no splits; the splits of the remaining files are accumulated, and the
vector store is updated only when the accumulated split list is non-empty. -/
def processUploads (sessionFiles : List String) (store : Option VectorStore)
    (uploads : List Upload) : Option VectorStore :=
  let all_splits := uploads.flatMap (fun u =>
    if u.name ∈ sessionFiles then [] else split_documents u.name u.docs)
  if all_splits = [] then store else some (update_vector_store store all_splits)

/-- C9: a file whose name matches an already-processed session file
contributes nothing — removing it from the batch gives the same resulting
store, so re-uploading the same filename leaves the chunk count unchanged;
and a batch consisting only of already-seen names leaves the store exactly
as it was. -/
theorem duplicate_upload_skipped (sessionFiles : List String)
    (store : Option VectorStore) (pre post : List Upload) (d : Upload)
    (hd : d.name ∈ sessionFiles) :
    processUploads sessionFiles store (pre ++ d :: post)
        = processUploads sessionFiles store (pre ++ post)
    ∧ get_document_stats (processUploads sessionFiles store (pre ++ d :: post))
        = get_document_stats (processUploads sessionFiles store (pre ++ post))
    ∧ ((∀ u ∈ pre ++ d :: post, u.name ∈ sessionFiles) →
        processUploads sessionFiles store (pre ++ d :: post) = store) := by
  have hsame : processUploads sessionFiles store (pre ++ d :: post)
      = processUploads sessionFiles store (pre ++ post) := by
    unfold processUploads
    simp only [List.flatMap_append, List.flatMap_cons, if_pos hd,
      List.nil_append]
  refine ⟨hsame, by rw [hsame], ?_⟩
  intro hall
  unfold processUploads
  rw [if_pos]
  rw [List.flatMap_eq_nil_iff]
  intro u hu
  rw [if_pos (hall u hu)]

/-- C9 witness: re-uploading `a.txt` (already in the session) alongside no
other files leaves a one-chunk store untouched. -/
theorem duplicate_upload_skipped_witness :
    processUploads ["a.txt"] (some ⟨[⟨"c".toList, "a.txt", none⟩]⟩)
        ([] ++ ⟨"a.txt", [⟨"fresh text".toList, none⟩]⟩ :: [])
      = some ⟨[⟨"c".toList, "a.txt", none⟩]⟩ :=
  (duplicate_upload_skipped ["a.txt"] (some ⟨[⟨"c".toList, "a.txt", none⟩]⟩)
      [] [] ⟨"a.txt", [⟨"fresh text".toList, none⟩]⟩ (by decide)).2.2
    (by decide)
